import Mathlib

/-!
# Verification of the `empaths` path-expression evaluator

A shallow embedding, in Lean 4, of the Go package `empaths`
(files `empaths.go`, `parser.go`, `operators.go`, `resolver.go`, `helpers.go`).

Modelling conventions:

* Go `any` data values are a closed inductive `Value`; Go `reflect.Value`
  handles are `RVal`, carrying the `flagRO` bit (`ro`) that the reflect
  package sets on values reached through unexported struct fields.
* Pointers and interfaces are modelled by one indirection constructor
  `Value.ptr` (the source treats `reflect.Ptr` and `reflect.Interface`
  identically at every site it inspects them).
* Go `nil` slices / maps are `Value.list none` / `Value.map _ none`.
* The Go integer families (`int*`, `uint*`) are collapsed to `Value.int`:
  the evaluator never does arithmetic and its string coercion is the plain
  base-10 rendering for every width.  Float kinds and float-keyed maps are
  outside the embedded fragment; no claim touches them.
* Paths are `List Char` scanned by index, mirroring the byte-by-byte scan of
  the Go source (which documents its path syntax as ASCII-only).
* Computed accessors (zero-argument methods) are embedded as data stored on
  a record: a name, the number of declared inputs, and the list of result
  values the bound call would return.  Panics raised *inside* a
  caller-supplied accessor or reference callback are outside the model (the
  spec lists them as an explicit boundary); panics raised by the reflect
  layer itself (`Value.Set` / `Value.Call` on a value obtained through an
  unexported field) are modelled as `Except.error`.
-/

namespace Empaths

/-- Go `panic` raised inside the reflect layer (not inside user callbacks). -/
inductive GoPanic where
  | reflectPanic
  deriving DecidableEq

/-- The declared key kind of a Go map type, as dispatched on by
`parseMapKey` in `helpers.go`.  `kother` is that function's `default`
branch (an unsupported key kind).  Float keys are outside the fragment. -/
inductive KeyKind where
  | kstr
  | kint
  | kuint
  | kbool
  | kother
  deriving DecidableEq

/-- A concrete Go map key of one of the embedded key kinds. -/
inductive GoKey where
  | str (s : String)
  | int (i : Int)
  | uint (n : Nat)
  | bool (b : Bool)
  deriving DecidableEq

/-- A Go `any` value, restricted to the fragment the claims exercise.

* `absent` is the untyped `nil` interface (and the result of failed
  extraction).
* `record fields methods` is a struct value: each field is
  `(name, exported?, value)`, each method is
  `(name, numIn, results-of-the-bound-call)`.
* `ptr` covers pointer and interface indirection (`none` = nil).
* `list none` / `map _ none` are nil slices / maps. -/
inductive Value where
  | absent
  | str (s : String)
  | bool (b : Bool)
  | int (i : Int)
  | ptr (inner : Option Value)
  | list (elems : Option (List Value))
  | map (kk : KeyKind) (entries : Option (List (GoKey × Value)))
  | record (fields : List (String × Bool × Value))
           (methods : List (String × Nat × List Value))

/-- A `reflect.Value` handle: either the zero `reflect.Value{}` (invalid)
or a valid handle on a value, with the `flagRO` bit that reflect sets when
the value was obtained through an unexported field. -/
inductive RVal where
  | invalid
  | valid (v : Value) (ro : Bool)

/-- `IsValid` on a `reflect.Value`. -/
def RVal.isValid : RVal → Bool
  | .invalid => false
  | .valid _ _ => true

/-- Base-10 digit string to `Nat`; `none` unless nonempty and all digits. -/
def digitsToNat? (cs : List Char) : Option Nat :=
  if cs = [] then none
  else if cs.all (fun c => c.isDigit) then
    some (cs.foldl (fun a c => a * 10 + (c.toNat - 48)) 0)
  else none

/-- Go `strconv.ParseInt(s, 10, 64)` (also `strconv.Atoi` on 64-bit):
optional sign, nonempty base-10 digits, 64-bit signed range. -/
def goParseInt (s : String) : Option Int :=
  match s.toList with
  | [] => none
  | c :: rest =>
    let signDigits : Bool × List Char :=
      if c = '-' then (true, rest)
      else if c = '+' then (false, rest)
      else (false, c :: rest)
    match digitsToNat? signDigits.2 with
    | none => none
    | some n =>
      let v : Int := if signDigits.1 then -(n : Int) else (n : Int)
      if -(2 ^ 63) ≤ v ∧ v ≤ 2 ^ 63 - 1 then some v else none

/-- Go `strconv.ParseUint(s, 10, 64)`: no sign permitted, nonempty base-10
digits, 64-bit unsigned range. -/
def goParseUint (s : String) : Option Nat :=
  match digitsToNat? s.toList with
  | none => none
  | some n => if n ≤ 2 ^ 64 - 1 then some n else none

/-- Go `strconv.Atoi` = `ParseInt(s, 10, 0)` with 64-bit `int`. -/
def goAtoi (s : String) : Option Int := goParseInt s

/-- Go `strconv.ParseBool`: accepts exactly these twelve literals. -/
def goParseBool (s : String) : Option Bool :=
  if s = "1" ∨ s = "t" ∨ s = "T" ∨ s = "TRUE" ∨ s = "True" ∨ s = "true" then
    some true
  else if s = "0" ∨ s = "f" ∨ s = "F" ∨ s = "FALSE" ∨ s = "False" ∨ s = "false" then
    some false
  else none

/-- Rendering of a map key by `fmt` (`%v`), used only inside `goFormat`. -/
def goFormatKey : GoKey → String
  | .str s => s
  | .int i => Int.repr i
  | .uint n => Nat.repr n
  | .bool b => cond b "true" "false"

mutual

/-- `fmt.Sprintf("%v", v)` on the embedded fragment — the `default` branch
of `toString` in `helpers.go`.  The spec calls this "a best-effort generic
textual rendering (not guaranteed stable across types)"; no claim depends
on its exact output.  (Real `%v` prints raw addresses for non-struct
pointers and sorts map keys; the fragment renders `&` + pointee and keeps
entry order.) -/
def goFormat : Value → String
  | .absent => "<nil>"
  | .str s => s
  | .bool b => cond b "true" "false"
  | .int i => Int.repr i
  | .ptr none => "<nil>"
  | .ptr (some v) => "&" ++ goFormat v
  | .list none => "[]"
  | .list (some es) => "[" ++ goFormatList es ++ "]"
  | .map _ none => "map[]"
  | .map _ (some es) => "map[" ++ goFormatEntries es ++ "]"
  | .record fields _ => "\x7b" ++ goFormatFields fields ++ "\x7d"

/-- Space-separated `%v` rendering of slice elements. -/
def goFormatList : List Value → String
  | [] => ""
  | [v] => goFormat v
  | v :: vs => goFormat v ++ " " ++ goFormatList vs

/-- Space-separated `key:value` rendering of map entries. -/
def goFormatEntries : List (GoKey × Value) → String
  | [] => ""
  | [e] => goFormatKey e.1 ++ ":" ++ goFormat e.2
  | e :: es => goFormatKey e.1 ++ ":" ++ goFormat e.2 ++ " " ++ goFormatEntries es

/-- Space-separated `%v` rendering of struct field values. -/
def goFormatFields : List (String × Bool × Value) → String
  | [] => ""
  | [f] => goFormat f.2.2
  | f :: fs => goFormat f.2.2 ++ " " ++ goFormatFields fs

end

/-- `toString` from `helpers.go`: the String Coercion.  `nil` → `""`;
strings, bools and the integer families get their dedicated cases; every
other kind falls to the `fmt.Sprintf("%v", v)` default. -/
def toString : Value → String
  | .absent => ""
  | .str s => s
  | .bool b => cond b "true" "false"
  | .int i => Int.repr i
  | v => goFormat v

/-- `parseMapKey` from `helpers.go`: parse a raw key string into the map's
declared key kind.  `none` models the invalid `reflect.Value{}` returned on
a parse failure or an unsupported key kind. -/
def parseMapKey (keyStr : String) (kk : KeyKind) : Option GoKey :=
  match kk with
  | .kstr => some (.str keyStr)
  | .kint => (goParseInt keyStr).map .int
  | .kuint => (goParseUint keyStr).map .uint
  | .kbool => (goParseBool keyStr).map .bool
  | .kother => none

/-- `getMapValue` from `helpers.go`.  Parse the key per the map's key kind
(failure ⇒ invalid), `MapIndex` it (missing ⇒ invalid; a nil map has no
entries), then copy the hit into a fresh addressable value.  The copy is
`copyValue.Set(result)`: `reflect.Value.Set` panics when its argument was
obtained through an unexported field (`flagRO`), and otherwise produces a
fresh handle with the flag cleared.  The source only ever calls this with a
map-kind value; on anything else `mapValue.Type().Key()` would panic. -/
def getMapValue (keyStr : String) (mapValue : RVal) : Except GoPanic RVal :=
  match mapValue with
  | .valid (.map kk entries) ro =>
    match parseMapKey keyStr kk with
    | none => .ok .invalid
    | some key =>
      match (entries.getD []).lookup key with
      | none => .ok .invalid
      | some v => if ro then .error .reflectPanic else .ok (.valid v false)
  | _ => .error .reflectPanic

/-- `extractValue` from `helpers.go`: the Value Extraction Adapter.
Invalid handle ⇒ nil; nil pointer/slice/map/interface ⇒ nil; pointer or
interface ⇒ recursively extract the pointee (`Elem` keeps `flagRO`);
inaccessible value (`!CanInterface()`, i.e. `flagRO` set) ⇒ nil; otherwise
the concrete value. -/
def extractValue : RVal → Value
  | .invalid => .absent
  | .valid (.ptr none) _ => .absent
  | .valid (.ptr (some inner)) ro => extractValue (.valid inner ro)
  | .valid (.list none) _ => .absent
  | .valid (.map _ none) _ => .absent
  | .valid v ro => if ro then .absent else v

/-- The method set of a value.  In Go any named type may declare methods;
the embedded fragment attaches method sets to record values only. -/
def methodsOf : Value → List (String × Nat × List Value)
  | .record _ ms => ms
  | _ => []

/-- `resolveMethod` from `resolver.go`: `MethodByName`, reject methods
with inputs, call, take the first result.  `reflect.Value.Call` panics on a
method of a receiver obtained through an unexported field (`flagRO`), and
`MethodByName` on the zero `reflect.Value` panics (callers guard
`IsValid`). -/
def resolveMethod (name : String) (value : RVal) : Except GoPanic RVal :=
  match value with
  | .invalid => .error .reflectPanic
  | .valid v ro =>
    match (methodsOf v).find? (fun m => m.1 == name) with
    | none => .ok .invalid
    | some m =>
      if m.2.1 > 0 then .ok .invalid
      else if ro then .error .reflectPanic
      else
        match m.2.2 with
        | [] => .ok .invalid
        | r :: _ => .ok (.valid r false)

/-- `resolveField` from `resolver.go`: struct ⇒ `FieldByName` (which also
finds unexported fields, marking the result `flagRO`); map ⇒ `getMapValue`;
anything else ⇒ invalid. -/
def resolveField (name : String) (value : RVal) : Except GoPanic RVal :=
  match value with
  | .valid (.record fields _) ro =>
    match fields.find? (fun f => f.1 == name) with
    | none => .ok .invalid
    | some f => .ok (.valid f.2.2 (ro || !f.2.1))
  | .valid (.map ..) _ => getMapValue name value
  | _ => .ok .invalid

/-- `resolveFieldOrMethod` from `resolver.go`: guard invalid value / empty
name, try the method first, fall through to plain field lookup. -/
def resolveFieldOrMethod (name : String) (value : RVal) : Except GoPanic RVal :=
  if value.isValid = false ∨ name = "" then .ok .invalid
  else
    match resolveMethod name value with
    | .error p => .error p
    | .ok methodValue =>
      if methodValue.isValid then .ok methodValue
      else resolveField name value

/-- `resolveIndexOrKey` from `resolver.go`: array/slice ⇒ `strconv.Atoi`
plus bounds check (`reflect.Value.Index` keeps `flagRO`; a nil slice has
length 0); map ⇒ `getMapValue`; anything else ⇒ invalid. -/
def resolveIndexOrKey (indexOrKey : String) (value : RVal) : Except GoPanic RVal :=
  match value with
  | .invalid => .ok .invalid
  | .valid (.list elems) ro =>
    let es := elems.getD []
    match goAtoi indexOrKey with
    | none => .ok .invalid
    | some i =>
      if h : 0 ≤ i ∧ i.toNat < es.length then .ok (.valid (es.get ⟨i.toNat, h.2⟩) ro)
      else .ok .invalid
  | .valid (.map ..) _ => getMapValue indexOrKey value
  | .valid _ _ => .ok .invalid

/-- The single-pass scan of `resolvePathSegments`: index and character of
the first `.` or `[` in the path, if any. -/
def findDotOrBracket : List Char → Option (Nat × Char)
  | [] => none
  | c :: rest =>
    if c = '.' ∨ c = '[' then some (0, c)
    else (findDotOrBracket rest).map (fun ic => (ic.1 + 1, ic.2))

/-- `strings.Index(path, "]")`: position of the first `]`, if any. -/
def findCloseBracket : List Char → Option Nat
  | [] => none
  | c :: rest =>
    if c = ']' then some 0
    else (findCloseBracket rest).map (fun i => i + 1)

theorem findDotOrBracket_lt {p : List Char} {i : Nat} {c : Char}
    (h : findDotOrBracket p = some (i, c)) : i < p.length := by
  induction p generalizing i c with
  | nil => simp [findDotOrBracket] at h
  | cons hd tl ih =>
    rw [findDotOrBracket] at h
    split at h
    · simp only [Option.some.injEq, Prod.mk.injEq] at h
      simp [← h.1]
    · cases hf : findDotOrBracket tl with
      | none => simp [hf] at h
      | some ic =>
        obtain ⟨i', c'⟩ := ic
        simp only [hf, Option.map_some', Option.some.injEq, Prod.mk.injEq] at h
        have := ih hf
        simp only [List.length_cons]
        omega

theorem findDotOrBracket_char {p : List Char} {i : Nat} {c : Char}
    (h : findDotOrBracket p = some (i, c)) : c = '.' ∨ c = '[' := by
  induction p generalizing i c with
  | nil => simp [findDotOrBracket] at h
  | cons hd tl ih =>
    rw [findDotOrBracket] at h
    split at h
    · simp only [Option.some.injEq, Prod.mk.injEq] at h
      rw [← h.2]; assumption
    · cases hf : findDotOrBracket tl with
      | none => simp [hf] at h
      | some ic =>
        obtain ⟨i', c'⟩ := ic
        simp only [hf, Option.map_some', Option.some.injEq, Prod.mk.injEq] at h
        exact h.2 ▸ ih hf

theorem findDotOrBracket_zero {p : List Char} {c : Char}
    (h : findDotOrBracket p = some (0, c)) : p.head? = some c := by
  cases p with
  | nil => simp [findDotOrBracket] at h
  | cons hd tl =>
    rw [findDotOrBracket] at h
    split at h
    · simp only [Option.some.injEq, Prod.mk.injEq] at h
      simp [h.2]
    · cases hf : findDotOrBracket tl with
      | none => simp [hf] at h
      | some ic => simp [hf] at h

theorem findCloseBracket_lt {p : List Char} {i : Nat}
    (h : findCloseBracket p = some i) : i < p.length := by
  induction p generalizing i with
  | nil => simp [findCloseBracket] at h
  | cons hd tl ih =>
    rw [findCloseBracket] at h
    split at h
    · simp only [Option.some.injEq] at h
      simp [← h]
    · cases hf : findCloseBracket tl with
      | none => simp [hf] at h
      | some j =>
        simp only [hf, Option.map_some', Option.some.injEq] at h
        have := ih (i := j) hf
        simp only [List.length_cons]
        omega

/-- "Remove leading dot if present" in `resolvePathAgainstValue`. -/
def stripDot : List Char → List Char
  | '.' :: rest => rest
  | p => p

theorem stripDot_length (p : List Char) : (stripDot p).length ≤ p.length := by
  cases p with
  | nil => simp [stripDot]
  | cons hd tl =>
    by_cases h : hd = '.'
    · subst h; simp [stripDot]
    · have : stripDot (hd :: tl) = hd :: tl := by
        rw [stripDot.eq_def]
        split
        · rename_i heq; rw [List.cons.injEq] at heq; exact absurd heq.1 h
        · rfl
      simp [this]

theorem sizeOf_bool (b : Bool) : sizeOf b = 1 := by cases b <;> rfl

theorem measure_strip_lt (v : Value) (ro : Bool) :
    4 * sizeOf v + 10 < 4 * sizeOf (RVal.valid v ro) + 3 := by
  have hb := sizeOf_bool ro
  simp only [RVal.valid.sizeOf_spec]
  omega

theorem measure_ptr_lt (inner : Value) (ro : Bool) :
    4 * sizeOf (RVal.valid inner ro) + 3 < 4 * sizeOf (Value.ptr (some inner)) + 10 := by
  have hb := sizeOf_bool ro
  simp only [RVal.valid.sizeOf_spec, Value.ptr.sizeOf_spec, Option.some.sizeOf_spec]
  omega

theorem measure_seg_lt (w : Value) (ro : Bool) :
    4 * sizeOf (RVal.valid w ro) + 1 < 4 * sizeOf w + 10 := by
  have hb := sizeOf_bool ro
  simp only [RVal.valid.sizeOf_spec]
  omega

mutual

/-- `resolvePathAgainstValue` from `resolver.go`, part 1: guard the invalid
handle and strip one leading `.`; the rest of the body is
`resolvePathAfterDot`. -/
def resolvePathAgainstValue (path : List Char) (value : RVal) : Except GoPanic RVal :=
  match value with
  | .invalid => .ok .invalid
  | .valid v ro => resolvePathAfterDot (stripDot path) v ro
termination_by (path.length, 4 * sizeOf value + 3)
decreasing_by
  have h := stripDot_length path
  rcases lt_or_eq_of_le h with h1 | h1
  · exact Prod.Lex.left _ _ h1
  · rw [h1]
    apply Prod.Lex.right
    apply measure_strip_lt

/-- `resolvePathAgainstValue`, part 2 (after the dot strip): empty path ⇒
the value itself; pointer/interface ⇒ nil yields invalid, else recurse on
the pointee (`Elem` keeps `flagRO`); otherwise split into segments. -/
def resolvePathAfterDot (path : List Char) (v : Value) (ro : Bool) : Except GoPanic RVal :=
  if path = [] then .ok (.valid v ro)
  else
    match v with
    | .ptr none => .ok .invalid
    | .ptr (some inner) => resolvePathAgainstValue path (.valid inner ro)
    | w => resolvePathSegments path (.valid w ro)
termination_by (path.length, 4 * sizeOf v + 10)
decreasing_by
  · apply Prod.Lex.right
    apply measure_ptr_lt
  · apply Prod.Lex.right
    apply measure_seg_lt

/-- `resolvePathSegments` from `resolver.go`: a leading `[` delegates to
bracket handling; otherwise the prefix up to the first `.`/`[` is this
hop's identifier, resolved via field-or-method lookup, and the remainder
(excluding a consumed `.`, including a `[`) recurses against the hop's
result. -/
def resolvePathSegments (path : List Char) (value : RVal) : Except GoPanic RVal :=
  if hh : path.head? = some '[' then resolveArrayOrMapAccess path value
  else
    match hf : findDotOrBracket path with
    | none =>
      -- no further delimiter: terminal hop, remaining path is empty
      resolveFieldOrMethod (String.mk path) value
    | some (i, c) =>
      if hc : c = '.' then
        match resolveFieldOrMethod (String.mk (path.take i)) value with
        | .error p => .error p
        | .ok resolvedValue =>
          if resolvedValue.isValid = false ∨ path.drop (i + 1) = [] then .ok resolvedValue
          else resolvePathAgainstValue (path.drop (i + 1)) resolvedValue
      else
        match resolveFieldOrMethod (String.mk (path.take i)) value with
        | .error p => .error p
        | .ok resolvedValue =>
          if resolvedValue.isValid = false ∨ path.drop i = [] then .ok resolvedValue
          else resolvePathAgainstValue (path.drop i) resolvedValue
termination_by (path.length, 4 * sizeOf value + 1)
decreasing_by
  · apply Prod.Lex.right
    omega
  · have h1 := findDotOrBracket_lt hf
    apply Prod.Lex.left
    simp only [List.length_drop]
    omega
  · have h1 := findDotOrBracket_lt hf
    have h2 := findDotOrBracket_char hf
    have h3 : i ≠ 0 := by
      intro h0
      subst h0
      have h4 := findDotOrBracket_zero hf
      rcases h2 with h2 | h2
      · exact hc h2
      · subst h2; exact hh h4
    apply Prod.Lex.left
    simp only [List.length_drop]
    omega

/-- `resolveArrayOrMapAccess` from `resolver.go`: find the matching `]`
(missing ⇒ invalid), resolve the enclosed text as index-or-key, recurse on
any remainder after the `]`.  (`path[1:cb]` with `cb = 0` would be an
out-of-range slice in Go; unreachable, since every caller has checked that
the path starts with `[`.) -/
def resolveArrayOrMapAccess (path : List Char) (value : RVal) : Except GoPanic RVal :=
  match hb : findCloseBracket path with
  | none => .ok .invalid
  | some cb =>
    let indexOrKey := (path.drop 1).take (cb - 1)
    match resolveIndexOrKey (String.mk indexOrKey) value with
    | .error p => .error p
    | .ok resolvedValue =>
      if resolvedValue.isValid = false ∨ cb = path.length - 1 then .ok resolvedValue
      else resolvePathAgainstValue (path.drop (cb + 1)) resolvedValue
termination_by (path.length, 4 * sizeOf value)
decreasing_by
  have h1 := findCloseBracket_lt hb
  apply Prod.Lex.left
  simp only [List.length_drop]
  omega

end

/-- The scan loop of `readUntilTerminatorASCII` in `parser.go`: the index
of the first terminator byte (space, `!`, `=`) at or after `index`, or the
end of the path. -/
def readUntilTerminatorEnd (path : List Char) (index : Nat) : Nat :=
  match h : path.get? index with
  | none => index
  | some c =>
    if c = ' ' ∨ c = '!' ∨ c = '=' then index
    else readUntilTerminatorEnd path (index + 1)
termination_by path.length - index
decreasing_by
  have hlt : index < path.length := by
    by_contra hc
    rw [List.get?_eq_none.mpr (Nat.le_of_not_lt hc)] at h
    exact Option.noConfusion h
  omega

/-- `readUntilTerminatorASCII` from `parser.go`: the segment
`path[start:stop]` and the stop index. -/
def readUntilTerminatorASCII (path : List Char) (index : Nat) : List Char × Nat :=
  let stop := readUntilTerminatorEnd path index
  ((path.drop index).take (stop - index), stop)

/-- `resolveModel` from `operators.go`: skip the `.`, read the sub-path up
to a terminator, and resolve it against `reflect.ValueOf(data)` (nil data
short-circuits to nil).  The Go `error` return is always `nil` (the
dispatcher's `err != nil` branches are dead code); the `Except` error here
models a reflect-layer panic instead, which in Go propagates. -/
def resolveModel (path : List Char) (data : Value) (index : Nat) :
    Except GoPanic (Value × Nat) :=
  let mp := readUntilTerminatorASCII path (index + 1)
  match data with
  | .absent => .ok (.absent, mp.2)
  | _ =>
    match resolvePathAgainstValue mp.1 (.valid data false) with
    | .error p => .error p
    | .ok result => .ok (extractValue result, mp.2)

/-- The first pass of `resolveStringLiteralASCII`: find the index of the
closing quote (or the end of the path), tracking whether any escape was
seen.  Called with the index just after the opening quote. -/
def litScanEnd (path : List Char) (quoteChar : Char) (index : Nat)
    (escaping hasEscapes : Bool) : Nat × Bool :=
  match h : path.get? index with
  | none => (index, hasEscapes)
  | some c =>
    if escaping then litScanEnd path quoteChar (index + 1) false true
    else if c = quoteChar then (index, hasEscapes)
    else if c = '\\' then litScanEnd path quoteChar (index + 1) true hasEscapes
    else litScanEnd path quoteChar (index + 1) false hasEscapes
termination_by path.length - index
decreasing_by
  all_goals
    have hlt : index < path.length := by
      by_contra hc
      rw [List.get?_eq_none.mpr (Nat.le_of_not_lt hc)] at h
      exact Option.noConfusion h
    omega

/-- The second pass of `resolveStringLiteralASCII`: rebuild the content of
a literal that contains escapes, dropping each `\` and emitting the byte
that follows it literally. -/
def litBuild : List Char → Bool → List Char
  | [], _ => []
  | c :: cs, true => c :: litBuild cs false
  | c :: cs, false => if c = '\\' then litBuild cs true else c :: litBuild cs false

/-- `resolveStringLiteralASCII` from `parser.go`: skip the opening quote,
scan to the closing quote, and return the content (rebuilt only when it
contains escapes) together with the index just past the closing quote. -/
def resolveStringLiteralASCII (path : List Char) (index : Nat) (quoteChar : Char) :
    String × Nat :=
  let start := index + 1
  let scan := litScanEnd path quoteChar start false false
  let content := (path.drop start).take (scan.1 - start)
  if scan.2 = false then (String.mk content, scan.1 + 1)
  else (String.mk (litBuild content false), scan.1 + 1)

/-- The caller-supplied `ReferenceResolver` (`nil` permitted).  An external
collaborator: modelled as a total function, per the spec's boundary that
only a misbehaving callback itself may abort evaluation. -/
def RefResolver : Type := Option (String → Value → Value)

/-- `resolveReference` from `operators.go`: skip the `:`, read the bare
name up to a terminator, and call the callback (absent callback ⇒ nil). -/
def resolveReference (path : List Char) (data : Value) (index : Nat)
    (refResolver : RefResolver) : Value × Nat :=
  let nm := readUntilTerminatorASCII path (index + 1)
  match refResolver with
  | none => (.absent, nm.2)
  | some f => (f (String.mk nm.1) data, nm.2)

theorem readUntilTerminatorEnd_ge (path : List Char) (index : Nat) :
    index ≤ readUntilTerminatorEnd path index := by
  have key : ∀ n i, path.length - i ≤ n → i ≤ readUntilTerminatorEnd path i := by
    intro n
    induction n with
    | zero =>
      intro i hi
      rw [readUntilTerminatorEnd]
      split
      · exact le_rfl
      · next c heq =>
        rw [List.get?_eq_none.mpr (by omega)] at heq
        exact absurd heq (by simp)
    | succ n ih =>
      intro i hi
      rw [readUntilTerminatorEnd]
      split
      · exact le_rfl
      · next c heq =>
        split
        · exact le_rfl
        · have hlt : i < path.length := by
            by_contra hc
            rw [List.get?_eq_none.mpr (Nat.le_of_not_lt hc)] at heq
            exact Option.noConfusion heq
          have := ih (i + 1) (by omega)
          omega
  exact key (path.length - index) index le_rfl

theorem litScanEnd_ge (path : List Char) (quoteChar : Char) (index : Nat)
    (escaping hasEscapes : Bool) :
    index ≤ (litScanEnd path quoteChar index escaping hasEscapes).1 := by
  have key : ∀ n i esc he, path.length - i ≤ n →
      i ≤ (litScanEnd path quoteChar i esc he).1 := by
    intro n
    induction n with
    | zero =>
      intro i esc he hi
      rw [litScanEnd]
      split
      · exact le_rfl
      · next c heq =>
        rw [List.get?_eq_none.mpr (by omega)] at heq
        exact absurd heq (by simp)
    | succ n ih =>
      intro i esc he hi
      rw [litScanEnd]
      split
      · exact le_rfl
      · next c heq =>
        have hlt : i < path.length := by
          by_contra hc
          rw [List.get?_eq_none.mpr (Nat.le_of_not_lt hc)] at heq
          exact Option.noConfusion heq
        split
        · have := ih (i + 1) false true (by omega)
          omega
        · split
          · exact le_rfl
          · split
            · have := ih (i + 1) true he (by omega)
              omega
            · have := ih (i + 1) false he (by omega)
              omega
  exact key (path.length - index) index escaping hasEscapes le_rfl

/-- The straight-line tail of `resolveNegation` after the operand has been
resolved: native negation of a `bool`; otherwise the lower-cased string
coercion is compared with `"true"`/`"false"`, and anything else yields
`false`. -/
def negValue (value : Value) : Value :=
  match value with
  | .bool b => .bool (!b)
  | _ =>
    let lowerStr := (toString value).toLower
    if lowerStr = "true" then .bool false
    else if lowerStr = "false" then .bool true
    else .bool false

mutual

/-- `resolveOperand` from `parser.go`: scan forward from `index` skipping
spaces and unrecognized bytes, and evaluate the first operand found
(ModelReference, StringLiteral, Negation or Reference — not Comparison);
scanning off the end returns the data value.  (The Go body's initial
`len(path) == 0` early return coincides with the loop-exhausted return and
needs no separate case.  The dead `err != nil` check after `resolveModel`
is omitted: that error is always nil.) -/
def resolveOperand (path : List Char) (data : Value) (refResolver : RefResolver)
    (index : Nat) : Except GoPanic (Value × Nat) :=
  if h : index < path.length then
    let c := path.getD index (Char.ofNat 0)
    if c = '.' then resolveModel path data index
    else if c = '\'' then
      let r := resolveStringLiteralASCII path index '\''
      .ok (.str r.1, r.2)
    else if c = '"' then
      let r := resolveStringLiteralASCII path index '"'
      .ok (.str r.1, r.2)
    else if c = '!' then resolveNegation path data index refResolver
    else if c = ':' then
      let r := resolveReference path data index refResolver
      .ok (r.1, r.2)
    else resolveOperand path data refResolver (index + 1)
  else .ok (data, index)
termination_by 2 * (path.length + 1 - index)
decreasing_by
  · omega
  · omega

/-- `resolveNegation` from `operators.go`: skip the `!`, resolve one
operand, and negate it via `negValue`. -/
def resolveNegation (path : List Char) (data : Value) (index : Nat)
    (refResolver : RefResolver) : Except GoPanic (Value × Nat) :=
  match resolveOperand path data refResolver (index + 1) with
  | .error p => .error p
  | .ok (value, newIndex) => .ok (negValue value, newIndex)
termination_by 2 * (path.length - index) + 1
decreasing_by
  omega

end

/-- `parseOperator` from `operators.go`: `some true` for `==`, `some
false` for `!=`, `none` (the Go error) for anything else or for fewer than
two remaining bytes. -/
def parseOperator (path : List Char) (index : Nat) : Option Bool × Nat :=
  if path.length ≤ index + 1 then (none, index + 1)
  else if path.get? index = some '!' ∧ path.get? (index + 1) = some '=' then
    (some false, index + 2)
  else if path.get? index = some '=' ∧ path.get? (index + 1) = some '=' then
    (some true, index + 2)
  else (none, index + 1)

/-- `resolveComparison` from `operators.go`: skip the `?`, resolve the
left operand, parse `==`/`!=` (an invalid operator yields `false`),
resolve the right operand, compare the two string coercions byte-exactly. -/
def resolveComparison (path : List Char) (data : Value) (index : Nat)
    (refResolver : RefResolver) : Except GoPanic (Bool × Nat) :=
  match resolveOperand path data refResolver (index + 1) with
  | .error p => .error p
  | .ok (leftOperand, i1) =>
    match parseOperator path i1 with
    | (none, i2) => .ok (false, i2)
    | (some equalsOperator, i2) =>
      let leftStr := toString leftOperand
      match resolveOperand path data refResolver i2 with
      | .error p => .error p
      | .ok (rightOperand, i3) =>
        let rightStr := toString rightOperand
        if equalsOperator then .ok (leftStr == rightStr, i3)
        else .ok (leftStr != rightStr, i3)

theorem resolveModel_progress (path : List Char) (data : Value) (index : Nat)
    (v : Value) (j : Nat) (h : resolveModel path data index = .ok (v, j)) :
    index < j := by
  have hge := readUntilTerminatorEnd_ge path (index + 1)
  simp only [resolveModel, readUntilTerminatorASCII] at h
  split at h
  · simp only [Except.ok.injEq, Prod.mk.injEq] at h
    omega
  · split at h
    · exact absurd h (by simp)
    · simp only [Except.ok.injEq, Prod.mk.injEq] at h
      omega

theorem resolveStringLiteral_progress (path : List Char) (index : Nat) (q : Char) :
    index + 2 ≤ (resolveStringLiteralASCII path index q).2 := by
  have hge := litScanEnd_ge path q (index + 1) false false
  simp only [resolveStringLiteralASCII]
  split
  · omega
  · omega

theorem resolveReference_progress (path : List Char) (data : Value) (index : Nat)
    (r : RefResolver) : index + 1 ≤ (resolveReference path data index r).2 := by
  have hge := readUntilTerminatorEnd_ge path (index + 1)
  simp only [resolveReference, readUntilTerminatorASCII]
  split
  · omega
  · omega

theorem parseOperator_progress (path : List Char) (index : Nat) :
    index + 1 ≤ (parseOperator path index).2 := by
  simp only [parseOperator]
  split
  · omega
  · split
    · omega
    · split
      · omega
      · omega

theorem operand_negation_progress (path : List Char) (data : Value) (r : RefResolver) :
    ∀ n i, path.length + 1 - i ≤ n →
      ((∀ v j, resolveNegation path data i r = .ok (v, j) → i + 1 ≤ j) ∧
       (∀ v j, resolveOperand path data r i = .ok (v, j) → i ≤ j)) := by
  intro n
  induction n with
  | zero =>
    intro i hi
    have hlen : path.length < i := by omega
    have hop : ∀ k, path.length ≤ k →
        resolveOperand path data r k = .ok (data, k) := by
      intro k hk
      rw [resolveOperand]
      rw [dif_neg (by omega)]
    constructor
    · intro v j h
      rw [resolveNegation] at h
      rw [hop (i + 1) (by omega)] at h
      simp only [Except.ok.injEq, Prod.mk.injEq] at h
      omega
    · intro v j h
      rw [hop i (by omega)] at h
      simp only [Except.ok.injEq, Prod.mk.injEq] at h
      omega
  | succ n ih =>
    intro i hi
    have hneg : ∀ v j, resolveNegation path data i r = .ok (v, j) → i + 1 ≤ j := by
      intro v j h
      rw [resolveNegation] at h
      cases hop : resolveOperand path data r (i + 1) with
      | error p => rw [hop] at h; exact absurd h (by simp)
      | ok wk =>
        obtain ⟨w, k⟩ := wk
        rw [hop] at h
        simp only [Except.ok.injEq, Prod.mk.injEq] at h
        have := (ih (i + 1) (by omega)).2 w k hop
        omega
    refine ⟨hneg, ?_⟩
    intro v j h
    rw [resolveOperand] at h
    by_cases hlt : i < path.length
    · rw [dif_pos hlt] at h
      simp only [] at h
      split at h
      · exact Nat.le_of_lt (resolveModel_progress path data i v j h)
      · split at h
        · have := resolveStringLiteral_progress path i '\''
          simp only [Except.ok.injEq, Prod.mk.injEq] at h
          omega
        · split at h
          · have := resolveStringLiteral_progress path i '"'
            simp only [Except.ok.injEq, Prod.mk.injEq] at h
            omega
          · split at h
            · have := hneg v j h
              omega
            · split at h
              · have := resolveReference_progress path data i r
                simp only [Except.ok.injEq, Prod.mk.injEq] at h
                omega
              · have := (ih (i + 1) (by omega)).2 v j h
                omega
    · rw [dif_neg hlt] at h
      simp only [Except.ok.injEq, Prod.mk.injEq] at h
      omega

theorem resolveOperand_progress (path : List Char) (data : Value) (r : RefResolver)
    (i : Nat) (v : Value) (j : Nat) (h : resolveOperand path data r i = .ok (v, j)) :
    i ≤ j :=
  (operand_negation_progress path data r (path.length + 1 - i) i le_rfl).2 v j h

theorem resolveNegation_progress (path : List Char) (data : Value) (r : RefResolver)
    (i : Nat) (v : Value) (j : Nat) (h : resolveNegation path data i r = .ok (v, j)) :
    i + 1 ≤ j :=
  (operand_negation_progress path data r (path.length + 1 - i) i le_rfl).1 v j h

theorem resolveComparison_progress (path : List Char) (data : Value) (r : RefResolver)
    (i : Nat) (b : Bool) (j : Nat)
    (h : resolveComparison path data i r = .ok (b, j)) : i + 2 ≤ j := by
  rw [resolveComparison] at h
  split at h
  · exact absurd h (by simp)
  · next l i1 hop =>
    have h1 := resolveOperand_progress path data r (i + 1) l i1 hop
    split at h
    · next i2 hpo =>
      have h2 := parseOperator_progress path i1
      rw [hpo] at h2
      simp only [Except.ok.injEq, Prod.mk.injEq] at h
      omega
    · next e i2 hpo =>
      have h2 := parseOperator_progress path i1
      rw [hpo] at h2
      split at h
      · exact absurd h (by simp)
      · next rv i3 hop2 =>
        have h3 := resolveOperand_progress path data r i2 rv i3 hop2
        split at h <;> simp only [Except.ok.injEq, Prod.mk.injEq] at h <;> omega

/-- The accumulator step of `resolveExpressions`: the first segment value
is held directly (`first`/`hasFirst`), later ones are appended to `rest`. -/
def pushValue (first : Option Value) (rest : List Value) (v : Value) :
    Option Value × List Value :=
  match first with
  | none => (some v, rest)
  | some f => (some f, rest ++ [v])

/-- The `strings.Builder` loop at the end of `resolveExpressions`: write
the string coercion of each value in order. -/
def concatStrings : List Value → String
  | [] => ""
  | v :: vs => toString v ++ concatStrings vs

/-- Outcome of one iteration of the dispatch `switch` in
`resolveExpressions`: a segment value together with the index to resume
at, a plain skip (space or unrecognized byte), or a propagated
reflect-layer panic. -/
inductive StepOut where
  | seg (v : Value) (next : Nat)
  | skip (next : Nat)
  | fail (p : GoPanic)

/-- The dispatch `switch` body of `resolveExpressions` from `parser.go`,
for the byte `c` found at `index`: `.` ⇒ ModelReference, `'`/`"` ⇒
StringLiteral, `!` ⇒ Negation, `:` ⇒ Reference, `?` ⇒ Comparison, a space
or any other byte ⇒ skip one byte.  (The `err != nil` check after
`resolveModel` is dead code — that error is always nil; the `fail` case
models a propagating reflect panic.) -/
def dispatchStep (path : List Char) (data : Value) (r : RefResolver)
    (index : Nat) (c : Char) : StepOut :=
  if c = '.' then
    match resolveModel path data index with
    | .error p => .fail p
    | .ok (v, newIndex) => .seg v newIndex
  else if c = '\'' then
    let s := resolveStringLiteralASCII path index '\''
    .seg (.str s.1) s.2
  else if c = '"' then
    let s := resolveStringLiteralASCII path index '"'
    .seg (.str s.1) s.2
  else if c = '!' then
    match resolveNegation path data index r with
    | .error p => .fail p
    | .ok (v, newIndex) => .seg v newIndex
  else if c = ':' then
    let s := resolveReference path data index r
    .seg s.1 s.2
  else if c = '?' then
    match resolveComparison path data index r with
    | .error p => .fail p
    | .ok (b, newIndex) => .seg (.bool b) newIndex
  else .skip (index + 1)

theorem dispatchStep_seg_progress (path : List Char) (data : Value) (r : RefResolver)
    (index : Nat) (c : Char) (v : Value) (next : Nat)
    (h : dispatchStep path data r index c = .seg v next) : index < next := by
  rw [dispatchStep] at h
  split at h
  · split at h
    · exact absurd h (by simp)
    · next vn hm =>
      simp only [StepOut.seg.injEq] at h
      have := resolveModel_progress path data index _ _ hm
      omega
  · split at h
    · simp only [StepOut.seg.injEq] at h
      have := resolveStringLiteral_progress path index '\''
      omega
    · split at h
      · simp only [StepOut.seg.injEq] at h
        have := resolveStringLiteral_progress path index '"'
        omega
      · split at h
        · split at h
          · exact absurd h (by simp)
          · next vn hm =>
            simp only [StepOut.seg.injEq] at h
            have := resolveNegation_progress path data r index _ _ hm
            omega
        · split at h
          · simp only [StepOut.seg.injEq] at h
            have := resolveReference_progress path data index r
            omega
          · split at h
            · split at h
              · exact absurd h (by simp)
              · next bn hm =>
                simp only [StepOut.seg.injEq] at h
                have := resolveComparison_progress path data r index _ _ hm
                omega
            · exact absurd h (by simp)

theorem dispatchStep_skip_progress (path : List Char) (data : Value) (r : RefResolver)
    (index : Nat) (c : Char) (next : Nat)
    (h : dispatchStep path data r index c = .skip next) : index < next := by
  rw [dispatchStep] at h
  split at h
  · split at h <;> exact absurd h (by simp)
  · split at h
    · exact absurd h (by simp)
    · split at h
      · exact absurd h (by simp)
      · split at h
        · split at h <;> exact absurd h (by simp)
        · split at h
          · exact absurd h (by simp)
          · split at h
            · split at h <;> exact absurd h (by simp)
            · simp only [StepOut.skip.injEq] at h
              omega

/-- The combination step at the end of `resolveExpressions` from
`parser.go`: several values ⇒ concatenate their string coercions (the
builder writes `toString first` then each element of `rest`); exactly one
⇒ that value unchanged; none ⇒ the data value. -/
def finishExpressions (data : Value) (index : Nat) (first : Option Value)
    (rest : List Value) : Except GoPanic (Value × Nat) :=
  match rest with
  | r0 :: rs =>
    .ok (.str (toString (first.getD .absent) ++ concatStrings (r0 :: rs)), index)
  | [] =>
    match first with
    | some f => .ok (f, index)
    | none => .ok (data, index)

/-- The scan loop of `resolveExpressions` from `parser.go`: repeat the
dispatch switch until the index leaves the path, accumulating segment
values, then combine with `finishExpressions`. -/
def resolveExpressionsLoop (path : List Char) (data : Value) (refResolver : RefResolver)
    (index : Nat) (first : Option Value) (rest : List Value) :
    Except GoPanic (Value × Nat) :=
  if h : index < path.length then
    match hs : dispatchStep path data refResolver index (path.getD index (Char.ofNat 0)) with
    | .fail p => .error p
    | .skip next => resolveExpressionsLoop path data refResolver next first rest
    | .seg v next =>
      let fr := pushValue first rest v
      resolveExpressionsLoop path data refResolver next fr.1 fr.2
  else finishExpressions data index first rest
termination_by path.length - index
decreasing_by
  · have := dispatchStep_skip_progress path data refResolver index _ _ hs
    omega
  · have := dispatchStep_seg_progress path data refResolver index _ _ _ hs
    omega

/-- `resolveExpressions` from `parser.go`: an empty path returns the data
value at the start index; otherwise run the scan loop with an empty
accumulator. -/
def resolveExpressions (path : List Char) (data : Value) (refResolver : RefResolver)
    (startIndex : Nat) : Except GoPanic (Value × Nat) :=
  if path.length = 0 then .ok (data, startIndex)
  else resolveExpressionsLoop path data refResolver startIndex none []

/-- `Resolve` from `empaths.go`: the public entry point.  An empty path
returns the data unchanged; otherwise evaluate the expressions from index
0 and drop the final index. -/
def Resolve (path : List Char) (data : Value) (refResolver : RefResolver) :
    Except GoPanic Value :=
  if path = [] then .ok data
  else
    match resolveExpressions path data refResolver 0 with
    | .error p => .error p
    | .ok res => .ok res.1

/-- Specification-level segment scan: the ordered list of expression
segment values the dispatcher loop encounters from `index` on, without the
accumulator.  Used to state the single-vs-multi combination rule; it is
related to `resolveExpressionsLoop` by `resolveExpressionsLoop_eq_scan`. -/
def scanSegments (path : List Char) (data : Value) (refResolver : RefResolver)
    (index : Nat) : Except GoPanic (List Value × Nat) :=
  if h : index < path.length then
    match hs : dispatchStep path data refResolver index (path.getD index (Char.ofNat 0)) with
    | .fail p => .error p
    | .skip next => scanSegments path data refResolver next
    | .seg v next =>
      match scanSegments path data refResolver next with
      | .error p => .error p
      | .ok (vs, j) => .ok (v :: vs, j)
  else .ok ([], index)
termination_by path.length - index
decreasing_by
  · have := dispatchStep_skip_progress path data refResolver index _ _ hs
    omega
  · have := dispatchStep_seg_progress path data refResolver index _ _ _ hs
    omega

/-- The combination rule of `resolveExpressions`, at the level of the full
ordered segment list: no segments ⇒ the data value; exactly one ⇒ that
value with its type preserved; several ⇒ the concatenation of their string
coercions. -/
def combineAll (data : Value) (vals : List Value) : Value :=
  match vals with
  | [] => data
  | [v] => v
  | v0 :: v1 :: vs => .str (concatStrings (v0 :: v1 :: vs))

theorem pushValue_fst_inv (first : Option Value) (rest : List Value) (v : Value) :
    (pushValue first rest v).1 = none → (pushValue first rest v).2 = [] := by
  cases first <;> simp [pushValue]

theorem pushValue_append (first : Option Value) (rest : List Value) (v : Value)
    (vs : List Value) (hinv : first = none → rest = []) :
    (pushValue first rest v).1.toList ++ ((pushValue first rest v).2 ++ vs)
      = first.toList ++ (rest ++ (v :: vs)) := by
  cases first with
  | none =>
    have := hinv rfl
    subst this
    simp [pushValue]
  | some f => simp [pushValue]

theorem loop_eq_scan_done (path : List Char) (data : Value) (r : RefResolver)
    (index : Nat) (first : Option Value) (rest : List Value)
    (hge : ¬ index < path.length) (hinv : first = none → rest = []) :
    resolveExpressionsLoop path data r index first rest =
      (match scanSegments path data r index with
       | .error p => .error p
       | .ok (vs, j) => .ok (combineAll data (first.toList ++ (rest ++ vs)), j)) := by
  rw [resolveExpressionsLoop.eq_def, scanSegments.eq_def]
  rw [dif_neg hge, dif_neg hge]
  cases first with
  | none =>
    have := hinv rfl
    subst this
    simp [combineAll, finishExpressions]
  | some f =>
    cases rest with
    | nil => simp [combineAll, finishExpressions]
    | cons r0 rs => simp [combineAll, concatStrings, finishExpressions]

/-- The dispatcher loop computes exactly the combination of the segment
values it has accumulated so far and those `scanSegments` still finds. -/
theorem resolveExpressionsLoop_eq_scan (path : List Char) (data : Value)
    (r : RefResolver) :
    ∀ n index first rest, path.length - index ≤ n →
      (first = none → rest = []) →
      resolveExpressionsLoop path data r index first rest =
        (match scanSegments path data r index with
         | .error p => .error p
         | .ok (vs, j) => .ok (combineAll data (first.toList ++ (rest ++ vs)), j)) := by
  intro n
  induction n with
  | zero =>
    intro index first rest hn hinv
    exact loop_eq_scan_done path data r index first rest (by omega) hinv
  | succ n ih =>
    intro index first rest hn hinv
    by_cases hlt : index < path.length
    · rw [resolveExpressionsLoop.eq_def, scanSegments.eq_def]
      rw [dif_pos hlt, dif_pos hlt]
      cases hs : dispatchStep path data r index (path.getD index (Char.ofNat 0)) with
      | fail p => simp
      | skip next =>
        have hnext := dispatchStep_skip_progress path data r index _ _ hs
        simp only []
        exact ih next first rest (by omega) hinv
      | seg v next =>
        have hnext := dispatchStep_seg_progress path data r index _ _ _ hs
        simp only []
        rw [ih next _ _ (by omega) (pushValue_fst_inv first rest v)]
        cases hsc : scanSegments path data r next with
        | error p => simp
        | ok vj =>
          obtain ⟨vs, j⟩ := vj
          simp only []
          rw [pushValue_append first rest v vs hinv]
    · exact loop_eq_scan_done path data r index first rest hlt hinv

theorem parseOperator_eq (path : List Char) (i : Nat)
    (h1 : path.get? i = some '=') (h2 : path.get? (i + 1) = some '=') :
    parseOperator path i = (some true, i + 2) := by
  have hlen : i + 1 < path.length := by
    by_contra hc
    rw [List.get?_eq_none.mpr (Nat.le_of_not_lt hc)] at h2
    exact Option.noConfusion h2
  rw [parseOperator]
  rw [if_neg (by omega)]
  rw [if_neg (by intro hcon; rw [h1] at hcon; simp at hcon)]
  rw [if_pos ⟨h1, h2⟩]

theorem parseOperator_ne (path : List Char) (i : Nat)
    (h1 : path.get? i = some '!') (h2 : path.get? (i + 1) = some '=') :
    parseOperator path i = (some false, i + 2) := by
  have hlen : i + 1 < path.length := by
    by_contra hc
    rw [List.get?_eq_none.mpr (Nat.le_of_not_lt hc)] at h2
    exact Option.noConfusion h2
  rw [parseOperator]
  rw [if_neg (by omega)]
  rw [if_pos ⟨h1, h2⟩]

theorem parseOperator_invalid (path : List Char) (i : Nat)
    (heq : ¬ (path.get? i = some '=' ∧ path.get? (i + 1) = some '='))
    (hne : ¬ (path.get? i = some '!' ∧ path.get? (i + 1) = some '='))  :
    parseOperator path i = (none, i + 1) := by
  rw [parseOperator]
  by_cases hlen : path.length ≤ i + 1
  · rw [if_pos hlen]
  · rw [if_neg hlen]
    rw [if_neg hne, if_neg heq]

/-- C3: for every comparison segment (leading `?`), once the left operand
has resolved: the two bytes `==` at the operator position yield the
byte-exact equality of the two operands' String-Coercion forms, `!=`
yields its negation, and any other two-byte sequence (or fewer than two
remaining bytes) yields the boolean `false` without raising.  The result
is always a comparison of `toString` forms — never a native numeric or
type-aware comparison. -/
theorem claim_C3 (path : List Char) (data : Value) (r : RefResolver) (i : Nat)
    (l : Value) (i1 : Nat)
    (hleft : resolveOperand path data r (i + 1) = .ok (l, i1)) :
    ((path.get? i1 = some '=' ∧ path.get? (i1 + 1) = some '=') →
      ∀ rv i3, resolveOperand path data r (i1 + 2) = .ok (rv, i3) →
        resolveComparison path data i r = .ok (toString l == toString rv, i3)) ∧
    ((path.get? i1 = some '!' ∧ path.get? (i1 + 1) = some '=') →
      ∀ rv i3, resolveOperand path data r (i1 + 2) = .ok (rv, i3) →
        resolveComparison path data i r = .ok (!(toString l == toString rv), i3)) ∧
    ((¬ (path.get? i1 = some '=' ∧ path.get? (i1 + 1) = some '=')) →
     (¬ (path.get? i1 = some '!' ∧ path.get? (i1 + 1) = some '=')) →
      resolveComparison path data i r = .ok (false, i1 + 1)) := by
  refine ⟨?_, ?_, ?_⟩
  · rintro ⟨h1, h2⟩ rv i3 hright
    rw [resolveComparison, hleft]
    simp only []
    rw [parseOperator_eq path i1 h1 h2]
    simp only []
    rw [hright]
    simp
  · rintro ⟨h1, h2⟩ rv i3 hright
    rw [resolveComparison, hleft]
    simp only []
    rw [parseOperator_ne path i1 h1 h2]
    simp only []
    rw [hright]
    simp [bne]
  · intro heq hne
    rw [resolveComparison, hleft]
    simp only []
    rw [parseOperator_invalid path i1 heq hne]

/-- Witness for C3 at the concrete path `?'a'=='a'` (both branches of the
operator grammar exercised through the `==` case). -/
theorem claim_C3_witness :
    resolveComparison ['?', '\'', 'a', '\'', '=', '=', '\'', 'a', '\''] .absent 0 none
      = .ok (true, 9) := by
  have hleft : resolveOperand ['?', '\'', 'a', '\'', '=', '=', '\'', 'a', '\'']
      .absent none (0 + 1) = .ok (.str "a", 4) := by
    rw [resolveOperand]
    simp [resolveStringLiteralASCII, litScanEnd, String.mk]
  have hright : resolveOperand ['?', '\'', 'a', '\'', '=', '=', '\'', 'a', '\'']
      .absent none (4 + 2) = .ok (.str "a", 9) := by
    rw [resolveOperand]
    simp [resolveStringLiteralASCII, litScanEnd, String.mk]
  have h := (claim_C3 ['?', '\'', 'a', '\'', '=', '=', '\'', 'a', '\''] .absent none 0
      (.str "a") 4 hleft).1 ⟨rfl, rfl⟩ (.str "a") 9 hright
  simpa [toString] using h

theorem negValue_not_bool (v : Value) (hnb : ∀ b, v ≠ .bool b) :
    negValue v = .bool (decide ((toString v).toLower = "false")) := by
  have key : ∀ s : String,
      (if s.toLower = "true" then Value.bool false
       else if s.toLower = "false" then Value.bool true
       else Value.bool false)
        = .bool (decide (s.toLower = "false")) := by
    intro s
    by_cases h1 : s.toLower = "true"
    · simp [h1]
    · by_cases h2 : s.toLower = "false" <;> simp [h1, h2]
  cases v with
  | bool b => exact absurd rfl (hnb b)
  | absent => exact key _
  | str s => exact key _
  | int i => exact key _
  | ptr inner => exact key _
  | list es => exact key _
  | map kk es => exact key _
  | record fs ms => exact key _

/-- C4: for every negation segment (leading `!`), once the operand has
resolved: a native boolean operand is complemented; any other operand is
stringified, lower-cased, and the result is `true` exactly when that form
is `"false"` (so `"true"` and every other string give `false`) — never an
error. -/
theorem claim_C4 (path : List Char) (data : Value) (r : RefResolver) (index : Nat)
    (v : Value) (j : Nat)
    (hop : resolveOperand path data r (index + 1) = .ok (v, j)) :
    (∀ b, v = .bool b → resolveNegation path data index r = .ok (.bool (!b), j)) ∧
    ((∀ b, v ≠ .bool b) →
      resolveNegation path data index r
        = .ok (.bool (decide ((toString v).toLower = "false")), j)) := by
  constructor
  · rintro b rfl
    rw [resolveNegation, hop]
    simp [negValue]
  · intro hnb
    rw [resolveNegation, hop]
    simp only []
    rw [negValue_not_bool v hnb]

/-- Witness for C4 at `!:b` against a reference callback producing the
boolean `true`: the segment yields its complement `false`. -/
theorem claim_C4_witness :
    resolveNegation ['!', ':', 'b'] .absent 0
        (some (fun _ _ => Value.bool true) : RefResolver)
      = .ok (.bool false, 3) := by
  have hop : resolveOperand ['!', ':', 'b'] .absent
      (some (fun _ _ => Value.bool true) : RefResolver) (0 + 1)
      = .ok (.bool true, 3) := by
    rw [resolveOperand]
    simp [resolveReference, readUntilTerminatorASCII]
    rw [readUntilTerminatorEnd]
    simp
    rw [readUntilTerminatorEnd]
    simp
  have h := (claim_C4 ['!', ':', 'b'] .absent
      (some (fun _ _ => Value.bool true) : RefResolver) 0 (.bool true) 3 hop).1
    true rfl
  simpa using h

theorem stripDot_head_ne (q : List Char) (h : q.head? ≠ some '.') : stripDot q = q := by
  cases q with
  | nil => rfl
  | cons c t =>
    rw [stripDot.eq_def]
    split
    · next heq =>
      rw [List.cons.injEq] at heq
      exact absurd (by simp [heq.1]) h
    · rfl

theorem resolvePathAgainstValue_valid (p : List Char) (v : Value) (ro : Bool) :
    resolvePathAgainstValue p (.valid v ro) = resolvePathAfterDot (stripDot p) v ro := by
  rw [resolvePathAgainstValue]

/-- C5: resolving a sub-path (in ModelReference form: at most one leading
dot, then an identifier or bracket) against a value wrapped once or twice
in a pointer/interface indirection extracts the same result as resolving
it against the value directly; and a nil indirection resolves to absent
for the whole ModelReference, whatever the remaining sub-path. -/
theorem claim_C5 (p : List Char) (v : Value) (ro : Bool)
    (hp : (stripDot p).head? ≠ some '.') :
    ((resolvePathAgainstValue p (.valid (.ptr (some v)) ro)).map extractValue
       = (resolvePathAgainstValue p (.valid v ro)).map extractValue)
    ∧ ((resolvePathAgainstValue p
          (.valid (.ptr (some (.ptr (some v)))) ro)).map extractValue
       = (resolvePathAgainstValue p (.valid v ro)).map extractValue)
    ∧ (resolvePathAgainstValue p (.valid (.ptr none) ro)).map extractValue
        = .ok .absent := by
  have hstrip := stripDot_head_ne (stripDot p) hp
  by_cases hq : stripDot p = []
  · have hdone : ∀ w : Value, resolvePathAfterDot ([] : List Char) w ro
        = .ok (.valid w ro) := by
      intro w
      rw [resolvePathAfterDot.eq_def, if_pos rfl]
    rw [resolvePathAgainstValue_valid, resolvePathAgainstValue_valid,
      resolvePathAgainstValue_valid, resolvePathAgainstValue_valid, hq,
      hdone, hdone, hdone, hdone]
    refine ⟨?_, ?_, ?_⟩ <;> simp [Except.map, extractValue]
  · have hone : resolvePathAfterDot (stripDot p) (.ptr (some v)) ro
        = resolvePathAfterDot (stripDot p) v ro := by
      conv_lhs => rw [resolvePathAfterDot]
      rw [if_neg hq]
      show resolvePathAgainstValue (stripDot p) (.valid v ro) = _
      rw [resolvePathAgainstValue_valid, hstrip]
    have htwo : resolvePathAfterDot (stripDot p) (.ptr (some (.ptr (some v)))) ro
        = resolvePathAfterDot (stripDot p) v ro := by
      conv_lhs => rw [resolvePathAfterDot]
      rw [if_neg hq]
      show resolvePathAgainstValue (stripDot p) (.valid (.ptr (some v)) ro) = _
      rw [resolvePathAgainstValue_valid, hstrip, hone]
    have hnil : resolvePathAfterDot (stripDot p) (.ptr none) ro = .ok .invalid := by
      conv_lhs => rw [resolvePathAfterDot]
      rw [if_neg hq]
    rw [resolvePathAgainstValue_valid, resolvePathAgainstValue_valid,
      resolvePathAgainstValue_valid, resolvePathAgainstValue_valid,
      hone, htwo, hnil]
    refine ⟨rfl, rfl, ?_⟩
    simp [Except.map, extractValue]

/-- Witness for C5 at the sub-path `Name` against the record
`{Name = "x"}` wrapped in pointers. -/
theorem claim_C5_witness :
    ((resolvePathAgainstValue ['N']
        (.valid (.ptr (some (.record [("N", true, .str "x")] []))) false)).map extractValue
      = (resolvePathAgainstValue ['N']
          (.valid (.record [("N", true, .str "x")] []) false)).map extractValue)
    ∧ (resolvePathAgainstValue ['N'] (.valid (.ptr none) false)).map extractValue
        = .ok .absent := by
  have h := claim_C5 ['N'] (.record [("N", true, .str "x")] []) false
    (by simp [stripDot])
  exact ⟨h.1, h.2.2⟩

/-- C6: bracket access on an indexed collection of elements `es` returns
the element at position `i` exactly when the enclosed text parses under
`strconv.Atoi` as an integer `i` with `0 ≤ i < es.length`; a non-integer
text, a negative index, or an out-of-range index yields absent (the
invalid handle); and bracket access on any value that is neither an
indexed nor a keyed collection yields absent. -/
theorem claim_C6 (k : String) (es : List Value) (ro : Bool) :
    (∀ (i : Int) (hi : 0 ≤ i) (hlt : i.toNat < es.length), goAtoi k = some i →
        resolveIndexOrKey k (.valid (.list (some es)) ro)
          = .ok (.valid (es.get ⟨i.toNat, hlt⟩) ro)) ∧
    (goAtoi k = none →
        resolveIndexOrKey k (.valid (.list (some es)) ro) = .ok .invalid) ∧
    (∀ i : Int, goAtoi k = some i → i < 0 ∨ (es.length : Int) ≤ i →
        resolveIndexOrKey k (.valid (.list (some es)) ro) = .ok .invalid) ∧
    (∀ v : Value, (∀ es', v ≠ .list es') → (∀ kk en, v ≠ .map kk en) →
        resolveIndexOrKey k (.valid v ro) = .ok .invalid) := by
  refine ⟨?_, ?_, ?_, ?_⟩
  · intro i hi hlt hk
    rw [resolveIndexOrKey, hk]
    simp only [Option.getD_some]
    rw [dif_pos ⟨hi, hlt⟩]
  · intro hk
    rw [resolveIndexOrKey, hk]
  · intro i hk hrange
    rw [resolveIndexOrKey, hk]
    simp only [Option.getD_some]
    rw [dif_neg (by
      rintro ⟨h1, h2⟩
      rcases hrange with h | h
      · omega
      · have : (i.toNat : Int) = i := Int.toNat_of_nonneg h1
        omega)]
  · intro v hnl hnm
    rw [resolveIndexOrKey.eq_def]
    cases v with
    | list es' => exact absurd rfl (hnl es')
    | map kk en => exact absurd rfl (hnm kk en)
    | absent => rfl
    | str s => rfl
    | bool b => rfl
    | int i => rfl
    | ptr inner => rfl
    | record fs ms => rfl

/-- Witness for C6: `[1]` on a two-element collection returns the second
element; `[999]` and `[x]` yield absent; bracket access on an integer
yields absent. -/
theorem claim_C6_witness :
    resolveIndexOrKey "1" (.valid (.list (some [.int 7, .int 8])) false)
      = .ok (.valid (.int 8) false)
    ∧ resolveIndexOrKey "999" (.valid (.list (some [.int 7, .int 8])) false)
      = .ok .invalid
    ∧ resolveIndexOrKey "x" (.valid (.list (some [.int 7, .int 8])) false)
      = .ok .invalid
    ∧ resolveIndexOrKey "1" (.valid (.int 3) false) = .ok .invalid := by
  have h := claim_C6 "1" [.int 7, .int 8] false
  have h999 := claim_C6 "999" [.int 7, .int 8] false
  have hx := claim_C6 "x" [.int 7, .int 8] false
  refine ⟨?_, ?_, ?_, ?_⟩
  · exact h.1 1 (by decide) (by decide) (by decide)
  · exact h999.2.2.1 999 (by decide) (by decide)
  · exact hx.2.1 (by decide)
  · exact h.2.2.2 (.int 3) (fun es' => Value.noConfusion) (fun kk en => Value.noConfusion)

/-- C7: record-hop resolution tries a computed accessor (method) first; its
first result is used exactly when the method takes no inputs and produces
at least one output; otherwise (arguments required, no outputs, or no such
method) resolution falls through to plain field lookup. -/
theorem claim_C7 (name : String) (fields : List (String × Bool × Value))
    (methods : List (String × Nat × List Value)) (hname : name ≠ "") :
    (∀ mn numIn results,
        methods.find? (fun m => m.1 == name) = some (mn, numIn, results) →
        ((numIn = 0 → ∀ r0 rs, results = r0 :: rs →
            resolveFieldOrMethod name (.valid (.record fields methods) false)
              = .ok (.valid r0 false)) ∧
         (0 < numIn →
            resolveFieldOrMethod name (.valid (.record fields methods) false)
              = resolveField name (.valid (.record fields methods) false)) ∧
         (results = [] →
            resolveFieldOrMethod name (.valid (.record fields methods) false)
              = resolveField name (.valid (.record fields methods) false)))) ∧
    (methods.find? (fun m => m.1 == name) = none →
        resolveFieldOrMethod name (.valid (.record fields methods) false)
          = resolveField name (.valid (.record fields methods) false)) := by
  have hval : (RVal.valid (.record fields methods) false).isValid = true := rfl
  constructor
  · intro mn numIn results hfind
    refine ⟨?_, ?_, ?_⟩
    · rintro rfl r0 rs rfl
      rw [resolveFieldOrMethod]
      rw [if_neg (by simp [RVal.isValid, hname])]
      rw [resolveMethod]
      simp only [methodsOf, hfind]
      rfl
    · intro hpos
      rw [resolveFieldOrMethod]
      rw [if_neg (by simp [RVal.isValid, hname])]
      rw [resolveMethod]
      simp only [methodsOf, hfind]
      rw [if_pos hpos]
      rfl
    · rintro rfl
      rw [resolveFieldOrMethod]
      rw [if_neg (by simp [RVal.isValid, hname])]
      rw [resolveMethod]
      simp only [methodsOf, hfind]
      by_cases hpos : numIn > 0
      · rw [if_pos hpos]
        rfl
      · rw [if_neg hpos, if_neg (by simp)]
        rfl
  · intro hfind
    rw [resolveFieldOrMethod]
    rw [if_neg (by simp [RVal.isValid, hname])]
    rw [resolveMethod]
    simp only [methodsOf, hfind]
    rfl

/-- Witness for C7: a record with a zero-argument single-result accessor
`Go` and a field of the same name — the accessor wins; a record whose
accessor requires an argument falls through to the field. -/
theorem claim_C7_witness :
    resolveFieldOrMethod "A"
        (.valid (.record [("A", true, .str "field")] [("A", 0, [.str "method"])]) false)
      = .ok (.valid (.str "method") false)
    ∧ resolveFieldOrMethod "A"
        (.valid (.record [("A", true, .str "field")] [("A", 1, [.str "method"])]) false)
      = .ok (.valid (.str "field") false) := by
  constructor
  · exact ((claim_C7 "A" [("A", true, .str "field")] [("A", 0, [.str "method"])]
      (by decide)).1 "A" 0 [.str "method"] rfl).1 rfl (.str "method") [] rfl
  · have h := ((claim_C7 "A" [("A", true, .str "field")] [("A", 1, [.str "method"])]
      (by decide)).1 "A" 1 [.str "method"] rfl).2.1 (by decide)
    rw [h]
    rfl

/-- Counterexample to C9 as stated: with a bool-keyed collection, the key
strings `"1"`, `"t"` and `"TRUE"` all parse (Go `strconv.ParseBool` is the
parser, not a `"true"`/`"false"` literal parse), and `"1"` looks up the
value stored under the key `true` rather than yielding absent. -/
theorem claim_C9_counterexample :
    parseMapKey "1" KeyKind.kbool = some (GoKey.bool true) ∧
    parseMapKey "t" KeyKind.kbool = some (GoKey.bool true) ∧
    parseMapKey "TRUE" KeyKind.kbool = some (GoKey.bool true) ∧
    getMapValue "1" (.valid (.map .kbool (some [(.bool true, .int 42)])) false)
      = .ok (.valid (.int 42) false) := by
  exact ⟨rfl, rfl, rfl, rfl⟩

/-- C9 (amended): for a keyed collection whose declared key kind is bool,
the key string is parsed by `strconv.ParseBool`, which accepts exactly
`"1"`, `"t"`, `"T"`, `"TRUE"`, `"True"`, `"true"` as `true` and `"0"`,
`"f"`, `"F"`, `"FALSE"`, `"False"`, `"false"` as `false`; every other key
string fails to parse and the lookup yields absent, and a parsed key is
looked up in the collection (missing key ⇒ absent, hit ⇒ the stored
value as a fresh copy). -/
theorem claim_C9 (s : String) (entries : List (GoKey × Value)) :
    (goParseBool s = none →
       getMapValue s (.valid (.map .kbool (some entries)) false) = .ok .invalid) ∧
    (∀ b, goParseBool s = some b →
       getMapValue s (.valid (.map .kbool (some entries)) false)
         = (match entries.lookup (GoKey.bool b) with
            | none => .ok .invalid
            | some v => .ok (.valid v false))) ∧
    (goParseBool s = some true ↔
       s = "1" ∨ s = "t" ∨ s = "T" ∨ s = "TRUE" ∨ s = "True" ∨ s = "true") ∧
    (goParseBool s = some false ↔
       s = "0" ∨ s = "f" ∨ s = "F" ∨ s = "FALSE" ∨ s = "False" ∨ s = "false") := by
  refine ⟨?_, ?_, ?_, ?_⟩
  · intro h
    simp [getMapValue, parseMapKey, h]
  · intro b hb
    simp only [getMapValue, parseMapKey, hb, Option.map_some']
    cases hlook : entries.lookup (GoKey.bool b) <;> simp [hlook]
  · rw [goParseBool]
    split_ifs with h1 h2 <;> simp_all
  · rw [goParseBool]
    split_ifs with h1 h2
    · constructor
      · intro hcon
        simp at hcon
      · intro hd
        rcases h1 with rfl | rfl | rfl | rfl | rfl | rfl <;> simp at hd
    · simp_all
    · simp_all

/-- Witness for C9 (amended): `"tRue"` fails to parse and yields absent;
`"true"` parses and retrieves the stored value. -/
theorem claim_C9_witness :
    getMapValue "tRue" (.valid (.map .kbool (some [(.bool true, .int 1)])) false)
      = .ok .invalid
    ∧ getMapValue "true" (.valid (.map .kbool (some [(.bool true, .int 1)])) false)
      = .ok (.valid (.int 1) false) := by
  constructor
  · exact (claim_C9 "tRue" [(.bool true, .int 1)]).1 rfl
  · have h := (claim_C9 "true" [(.bool true, .int 1)]).2.1 true rfl
    rw [h]
    rfl

theorem scanSegments_done (path : List Char) (data : Value) (r : RefResolver)
    (index : Nat) (hge : ¬ index < path.length) :
    scanSegments path data r index = .ok ([], index) := by
  rw [scanSegments.eq_def, dif_neg hge]

theorem scanSegments_skip (path : List Char) (data : Value) (r : RefResolver)
    (index next : Nat) (hlt : index < path.length)
    (hd : dispatchStep path data r index (path.getD index (Char.ofNat 0)) = .skip next) :
    scanSegments path data r index = scanSegments path data r next := by
  rw [scanSegments.eq_def, dif_pos hlt]
  split
  · next p heq =>
    rw [hd] at heq
    exact StepOut.noConfusion heq
  · next nx heq =>
    rw [hd] at heq
    rw [StepOut.skip.injEq] at heq
    rw [heq]
  · next v nx heq =>
    rw [hd] at heq
    exact StepOut.noConfusion heq

theorem scanSegments_seg (path : List Char) (data : Value) (r : RefResolver)
    (index next : Nat) (v : Value) (hlt : index < path.length)
    (hd : dispatchStep path data r index (path.getD index (Char.ofNat 0)) = .seg v next) :
    scanSegments path data r index =
      (match scanSegments path data r next with
       | .error p => .error p
       | .ok (vs, j) => .ok (v :: vs, j)) := by
  rw [scanSegments.eq_def, dif_pos hlt]
  split
  · next p heq =>
    rw [hd] at heq
    exact StepOut.noConfusion heq
  · next nx heq =>
    rw [hd] at heq
    exact StepOut.noConfusion heq
  · next w nx heq =>
    rw [hd] at heq
    rw [StepOut.seg.injEq] at heq
    rw [heq.1, heq.2]

theorem scanSegments_final (path : List Char) (data : Value) (r : RefResolver) :
    ∀ n index vs j, path.length - index ≤ n →
      scanSegments path data r index = .ok (vs, j) → path.length ≤ j := by
  intro n
  induction n with
  | zero =>
    intro index vs j hn h
    rw [scanSegments_done path data r index (by omega)] at h
    simp only [Except.ok.injEq, Prod.mk.injEq] at h
    omega
  | succ n ih =>
    intro index vs j hn h
    by_cases hlt : index < path.length
    · cases hd : dispatchStep path data r index (path.getD index (Char.ofNat 0)) with
      | fail p =>
        rw [scanSegments.eq_def, dif_pos hlt] at h
        split at h
        · exact absurd h (by simp)
        · next nx heq =>
          rw [hd] at heq
          exact StepOut.noConfusion heq
        · next w nx heq =>
          rw [hd] at heq
          exact StepOut.noConfusion heq
      | skip next =>
        rw [scanSegments_skip path data r index next hlt hd] at h
        have := dispatchStep_skip_progress path data r index _ _ hd
        exact ih next vs j (by omega) h
      | seg v next =>
        rw [scanSegments_seg path data r index next v hlt hd] at h
        have := dispatchStep_seg_progress path data r index _ _ _ hd
        cases hsc : scanSegments path data r next with
        | error p =>
          rw [hsc] at h
          exact absurd h (by simp)
        | ok vj =>
          obtain ⟨vs', j'⟩ := vj
          rw [hsc] at h
          simp only [Except.ok.injEq, Prod.mk.injEq] at h
          have := ih next vs' j' (by omega) hsc
          omega
    · rw [scanSegments_done path data r index hlt] at h
      simp only [Except.ok.injEq, Prod.mk.injEq] at h
      omega

theorem resolveExpressions_eq_scan (path : List Char) (data : Value)
    (r : RefResolver) (h0 : path ≠ []) :
    resolveExpressions path data r 0 =
      (match scanSegments path data r 0 with
       | .error p => .error p
       | .ok (vs, j) => .ok (combineAll data vs, j)) := by
  rw [resolveExpressions, if_neg (by simpa using h0)]
  rw [resolveExpressionsLoop_eq_scan path data r path.length 0 none [] (by omega)
    (fun _ => rfl)]
  cases hsc : scanSegments path data r 0 with
  | error p => simp
  | ok vj =>
    obtain ⟨vs, j⟩ := vj
    simp

theorem Resolve_eq_scan (path : List Char) (data : Value) (r : RefResolver)
    (h0 : path ≠ []) :
    Resolve path data r =
      (match scanSegments path data r 0 with
       | .error p => .error p
       | .ok (vs, j) => .ok (combineAll data vs)) := by
  rw [Resolve, if_neg h0, resolveExpressions_eq_scan path data r h0]
  cases hsc : scanSegments path data r 0 with
  | error p => simp
  | ok vj =>
    obtain ⟨vs, j⟩ := vj
    simp

/-- C10: the expression dispatcher terminates (it is a total function) and
fully consumes its input: every segment delegate invoked by the dispatch
switch returns an index strictly greater than the one it was given (both
for segment-producing and skipping steps), so whenever the dispatcher
returns a result its final index is at least the length of the path. -/
theorem claim_C10 (path : List Char) (data : Value) (r : RefResolver) :
    (∀ index c v next,
        dispatchStep path data r index c = .seg v next → index < next) ∧
    (∀ index c next,
        dispatchStep path data r index c = .skip next → index < next) ∧
    (∀ startIndex v j,
        resolveExpressions path data r startIndex = .ok (v, j) → path.length ≤ j) := by
  refine ⟨?_, ?_, ?_⟩
  · exact fun index c v next h => dispatchStep_seg_progress path data r index c v next h
  · exact fun index c next h => dispatchStep_skip_progress path data r index c next h
  · intro startIndex v j h
    by_cases hlen : path.length = 0
    · rw [resolveExpressions, if_pos hlen] at h
      simp only [Except.ok.injEq, Prod.mk.injEq] at h
      omega
    · rw [resolveExpressions, if_neg hlen] at h
      rw [resolveExpressionsLoop_eq_scan path data r path.length startIndex none []
        (by omega) (fun _ => rfl)] at h
      cases hsc : scanSegments path data r startIndex with
      | error p =>
        rw [hsc] at h
        exact absurd h (by simp)
      | ok vj =>
        obtain ⟨vs, j'⟩ := vj
        rw [hsc] at h
        simp only [Except.ok.injEq, Prod.mk.injEq] at h
        have := scanSegments_final path data r path.length startIndex vs j'
          (by omega) hsc
        omega

/-- Witness for C10 at the one-byte path of a single space: the dispatcher
returns with its index at the end of the path. -/
theorem claim_C10_witness :
    resolveExpressions [' '] (.int 5) none 0 = .ok (.int 5, 1) ∧
    ([' '] : List Char).length ≤ 1 := by
  have hd : dispatchStep [' '] (.int 5) none 0 (([' '] : List Char).getD 0 (Char.ofNat 0))
      = .skip 1 := by
    simp [dispatchStep]
  have hscan : scanSegments [' '] (.int 5) none 0 = .ok ([], 1) := by
    rw [scanSegments_skip [' '] (.int 5) none 0 1 (by decide) hd]
    exact scanSegments_done [' '] (.int 5) none 1 (by decide)
  have hres : resolveExpressions [' '] (.int 5) none 0 = .ok (.int 5, 1) := by
    rw [resolveExpressions_eq_scan [' '] (.int 5) none (by decide), hscan]
    rfl
  exact ⟨hres, (claim_C10 [' '] (.int 5) none).2.2 0 (.int 5) 1 hres⟩

/-- C1: for every non-empty path, if the dispatch scan finds exactly one
expression segment then `Resolve` returns that segment's value unchanged —
native type preserved, never stringified; if it finds two or more
segments, `Resolve` returns the single string obtained by converting each
segment value to its canonical string form (String Coercion) and
concatenating them in encountered order. -/
theorem claim_C1 (path : List Char) (data : Value) (r : RefResolver)
    (vs : List Value) (j : Nat) (hne : path ≠ [])
    (hscan : scanSegments path data r 0 = .ok (vs, j)) :
    (∀ v, vs = [v] → Resolve path data r = .ok v) ∧
    (2 ≤ vs.length → Resolve path data r = .ok (.str (concatStrings vs))) := by
  rw [Resolve_eq_scan path data r hne, hscan]
  constructor
  · rintro v rfl
    rfl
  · intro hlen
    cases vs with
    | nil => simp at hlen
    | cons v0 t =>
      cases t with
      | nil => simp at hlen
      | cons v1 t2 => rfl

/-- Witness for C1: the single-segment path `.A` on a record with integer
field `A = 30` returns the integer natively, and the two-segment path
`'a' 'b'` returns the concatenated string `"ab"`. -/
theorem claim_C1_witness :
    Resolve ['.', 'A'] (.record [("A", true, .int 30)] []) none = .ok (.int 30)
    ∧ Resolve ['\'', 'a', '\'', ' ', '\'', 'b', '\''] .absent none = .ok (.str "ab") := by
  constructor
  · have hmodel : resolveModel ['.', 'A'] (.record [("A", true, .int 30)] []) 0
        = .ok (.int 30, 2) := by
      simp [resolveModel, readUntilTerminatorASCII, readUntilTerminatorEnd,
        resolvePathAgainstValue, resolvePathAfterDot, resolvePathSegments, stripDot,
        findDotOrBracket, resolveFieldOrMethod, resolveMethod, resolveField,
        methodsOf, RVal.isValid, extractValue, String.mk]
    have hd : dispatchStep ['.', 'A'] (.record [("A", true, .int 30)] []) none 0
        ((['.', 'A'] : List Char).getD 0 (Char.ofNat 0)) = .seg (.int 30) 2 := by
      simp [dispatchStep, hmodel]
    have hscan : scanSegments ['.', 'A'] (.record [("A", true, .int 30)] []) none 0
        = .ok ([.int 30], 2) := by
      rw [scanSegments_seg _ _ _ 0 2 (.int 30) (by decide) hd]
      rw [scanSegments_done _ _ _ 2 (by decide)]
    exact (claim_C1 ['.', 'A'] (.record [("A", true, .int 30)] []) none
      [.int 30] 2 (by decide) hscan).1 (.int 30) rfl
  · have hlit0 : resolveStringLiteralASCII ['\'', 'a', '\'', ' ', '\'', 'b', '\''] 0 '\''
        = ("a", 3) := by
      simp [resolveStringLiteralASCII, litScanEnd, String.mk]
    have hlit4 : resolveStringLiteralASCII ['\'', 'a', '\'', ' ', '\'', 'b', '\''] 4 '\''
        = ("b", 7) := by
      simp [resolveStringLiteralASCII, litScanEnd, String.mk]
    have hd0 : dispatchStep ['\'', 'a', '\'', ' ', '\'', 'b', '\''] .absent none 0
        ((['\'', 'a', '\'', ' ', '\'', 'b', '\''] : List Char).getD 0 (Char.ofNat 0))
        = .seg (.str "a") 3 := by
      simp [dispatchStep, hlit0]
    have hd3 : dispatchStep ['\'', 'a', '\'', ' ', '\'', 'b', '\''] .absent none 3
        ((['\'', 'a', '\'', ' ', '\'', 'b', '\''] : List Char).getD 3 (Char.ofNat 0))
        = .skip 4 := by
      simp [dispatchStep]
    have hd4 : dispatchStep ['\'', 'a', '\'', ' ', '\'', 'b', '\''] .absent none 4
        ((['\'', 'a', '\'', ' ', '\'', 'b', '\''] : List Char).getD 4 (Char.ofNat 0))
        = .seg (.str "b") 7 := by
      simp [dispatchStep, hlit4]
    have hscan : scanSegments ['\'', 'a', '\'', ' ', '\'', 'b', '\''] .absent none 0
        = .ok ([.str "a", .str "b"], 7) := by
      rw [scanSegments_seg _ _ _ 0 3 (.str "a") (by decide) hd0]
      rw [scanSegments_skip _ _ _ 3 4 (by decide) hd3]
      rw [scanSegments_seg _ _ _ 4 7 (.str "b") (by decide) hd4]
      rw [scanSegments_done _ _ _ 7 (by decide)]
    have h := (claim_C1 ['\'', 'a', '\'', ' ', '\'', 'b', '\''] .absent none
      [.str "a", .str "b"] 7 (by decide) hscan).2 (by decide)
    rw [h]
    rfl

/-- Counterexample to C8 as stated: the non-empty path of a single space
scans to zero segments, yet `Resolve` returns the root value unchanged
(here the integer 7) — not a (stringified) string result. -/
theorem claim_C8_counterexample :
    scanSegments [' '] (.int 7) none 0 = .ok ([], 1) ∧
    Resolve [' '] (.int 7) none = .ok (.int 7) ∧
    ∀ s, Resolve [' '] (.int 7) none ≠ .ok (.str s) := by
  have hd : dispatchStep [' '] (.int 7) none 0
      (([' '] : List Char).getD 0 (Char.ofNat 0)) = .skip 1 := by
    simp [dispatchStep]
  have hscan : scanSegments [' '] (.int 7) none 0 = .ok ([], 1) := by
    rw [scanSegments_skip [' '] (.int 7) none 0 1 (by decide) hd]
    exact scanSegments_done [' '] (.int 7) none 1 (by decide)
  have hres : Resolve [' '] (.int 7) none = .ok (.int 7) := by
    rw [Resolve_eq_scan [' '] (.int 7) none (by decide), hscan]
    rfl
  refine ⟨hscan, hres, ?_⟩
  intro s hcon
  rw [hres] at hcon
  simp at hcon

/-- C8 (amended): a path that scans to zero expression segments — whether
empty or made only of bytes that start no segment — makes `Resolve`
return the root data value unchanged, exactly like the empty path. -/
theorem claim_C8 (path : List Char) (data : Value) (r : RefResolver) (j : Nat)
    (hscan : scanSegments path data r 0 = .ok ([], j)) :
    Resolve path data r = .ok data ∧ Resolve [] data r = .ok data := by
  constructor
  · by_cases hne : path = []
    · rw [hne, Resolve, if_pos rfl]
    · rw [Resolve_eq_scan path data r hne, hscan]
      rfl
  · rw [Resolve, if_pos rfl]

/-- Witness for C8 (amended) at the all-space path. -/
theorem claim_C8_witness :
    Resolve [' '] (.int 7) none = .ok (.int 7)
    ∧ Resolve [] (.int 7) none = .ok (.int 7) := by
  have hd : dispatchStep [' '] (.int 7) none 0
      (([' '] : List Char).getD 0 (Char.ofNat 0)) = .skip 1 := by
    simp [dispatchStep]
  have hscan : scanSegments [' '] (.int 7) none 0 = .ok ([], 1) := by
    rw [scanSegments_skip [' '] (.int 7) none 0 1 (by decide) hd]
    exact scanSegments_done [' '] (.int 7) none 1 (by decide)
  exact claim_C8 [' '] (.int 7) none 1 hscan

theorem scanSegments_fail (path : List Char) (data : Value) (r : RefResolver)
    (index : Nat) (p : GoPanic) (hlt : index < path.length)
    (hd : dispatchStep path data r index (path.getD index (Char.ofNat 0)) = .fail p) :
    scanSegments path data r index = .error p := by
  rw [scanSegments.eq_def, dif_pos hlt]
  split
  · next q heq =>
    rw [hd] at heq
  · next nx heq =>
    rw [hd] at heq
    exact StepOut.noConfusion heq
  · next w nx heq =>
    rw [hd] at heq
    exact StepOut.noConfusion heq

/-- C2 (failing input): the path `.m.k` against a record whose field `m`
is unexported and holds a keyed collection containing the key `"k"`.  The
walk reaches the collection through the unexported field, so the handle
carries `flagRO`; the key is found, and the copy step
(`reflect.Value.Set`) panics — `Resolve` aborts instead of degrading the
inaccessible member to absent, although neither a computed accessor nor a
reference callback was involved. -/
theorem claim_C2 :
    Resolve ['.', 'm', '.', 'k']
        (.record [("m", false, .map .kstr (some [(.str "k", .int 1)]))] []) none
      = .error .reflectPanic := by
  have hmodel : resolveModel ['.', 'm', '.', 'k']
      (.record [("m", false, .map .kstr (some [(.str "k", .int 1)]))] []) 0
      = .error .reflectPanic := by
    simp [resolveModel, readUntilTerminatorASCII, readUntilTerminatorEnd,
      resolvePathAgainstValue, resolvePathAfterDot, resolvePathSegments, stripDot,
      findDotOrBracket, resolveFieldOrMethod, resolveMethod, resolveField, methodsOf,
      RVal.isValid, getMapValue, parseMapKey, extractValue, String.mk]
  have hd : dispatchStep ['.', 'm', '.', 'k']
      (.record [("m", false, .map .kstr (some [(.str "k", .int 1)]))] []) none 0
      ((['.', 'm', '.', 'k'] : List Char).getD 0 (Char.ofNat 0))
      = .fail .reflectPanic := by
    simp [dispatchStep, hmodel]
  have hscan : scanSegments ['.', 'm', '.', 'k']
      (.record [("m", false, .map .kstr (some [(.str "k", .int 1)]))] []) none 0
      = .error .reflectPanic :=
    scanSegments_fail _ _ _ 0 .reflectPanic (by decide) hd
  rw [Resolve_eq_scan _ _ _ (by decide), hscan]

end Empaths
